import Mathlib

/-!
Verification of the concurrent HTTP downloader in `src/main.rs`.

The development shallowly embeds the program:
* `DownloadStats` mirrors the Rust struct `DownloadStats` (fields
  `total_bytes`, `total_size`, `start_time`); machine `u64` counters are
  modelled as `Nat` (the program only ever adds small nonnegative
  quantities, so no overflow semantics are relevant to the claims) and
  the monotone clock as `ℚ`.
* `reporterSpeed` and `progressValue` / `displayedPercent` embed the body
  of `update_progress_and_speed`.  IEEE-754 `f64` division with a zero
  divisor produces a non-finite value (`inf` or `NaN`); since the code
  divides `total_bytes as f64` by `elapsed` with no guard, the embedding
  returns `Option ℚ`, with `none` standing for the non-finite results of
  a division by zero and `some q` for the exact finite quotient.
* `splitSlash` embeds Rust's `str::split('/')` (which always yields at
  least one, possibly empty, piece) over strings viewed as `List Char`;
  `fileNameFor` embeds line 139 of `main.rs`.
* `downloadFile` / `streamLoop` embed `download_file`, with the network
  send, the per-chunk stream items and the filesystem write outcomes
  supplied as explicit inputs, files as `Option (List Nat)` (`none` =
  never created) and errors as `Except`.
* `runMain` embeds the observable control flow of `main` (usage check,
  client construction, task spawning, draining the join handles with
  `handle.await??`, aborting the reporter and printing the final
  message), with the per-task outcomes supplied as an explicit list.
* A small-step lock machine (`Conf`, `stepTask`, `run`) embeds the
  `Arc<Mutex<DownloadStats>>` discipline: every access the program makes
  to the shared stats happens between `lock().await` and the guard drop,
  and a writer's `+=` is a read-modify-write of one field.
-/

/-- Mirrors the Rust enum `DownloadError` (`main.rs` lines 21-26); error
payloads are modelled as strings. -/
inductive DownloadError
  | ReqwestError (e : String)
  | IoError (e : String)
  | Other (s : String)
deriving DecidableEq, Repr

/-- Mirrors the Rust struct `DownloadStats` (`main.rs` lines 52-56). -/
structure DownloadStats where
  total_bytes : Nat
  total_size : Nat
  start_time : ℚ
deriving DecidableEq, Repr

/-- `stats.total_bytes += n` (`main.rs` line 74). -/
def addTotalBytes (s : DownloadStats) (n : Nat) : DownloadStats :=
  { s with total_bytes := s.total_bytes + n }

/-- `stats.total_size += n` (`main.rs` line 64). -/
def addTotalSize (s : DownloadStats) (n : Nat) : DownloadStats :=
  { s with total_size := s.total_size + n }

/-- The speed computation of `update_progress_and_speed` (`main.rs`
line 85): `(stats.total_bytes as f64) / elapsed / 1_000_000.0`.
`elapsed` is `stats.start_time.elapsed().as_secs_f64()`, which is
nonnegative (Rust's `Instant` clock is monotone).  The division is not
guarded: a zero `elapsed` makes the `f64` quotient non-finite (`NaN` when
`total_bytes = 0`, `+inf` otherwise), modelled as `none`; the second
divisor `1_000_000.0` is a nonzero constant. -/
def reporterSpeed (total_bytes : Nat) (elapsed : ℚ) : Option ℚ :=
  if elapsed = 0 then none
  else some ((total_bytes : ℚ) / elapsed / 1000000)

/-- The progress computation of `update_progress_and_speed` (`main.rs`
lines 87-91): `if total_size > 0 { total_bytes/total_size*100 } else { 0 }`. -/
def progressValue (total_bytes total_size : Nat) : ℚ :=
  if 0 < total_size then ((total_bytes : ℚ) / (total_size : ℚ)) * 100
  else 0

/-- What the reporter tick renders as the percentage (`main.rs`
lines 93-99): the `Print` of the progress line is unconditional, so a
percentage is displayed on every tick (never omitted), `some` of the
computed value. -/
def displayedPercent (total_bytes total_size : Nat) : Option ℚ :=
  some (progressValue total_bytes total_size)

/-- Rust's `str::split('/')` over a string viewed as a list of
characters: it always yields at least one (possibly empty) piece, with
empty pieces between adjacent separators and at the ends. -/
def splitSlash : List Char → List (List Char)
  | [] => [[]]
  | c :: rest =>
    if c = '/' then [] :: splitSlash rest
    else
      match splitSlash rest with
      | [] => [[c]]
      | seg :: segs => (c :: seg) :: segs

/-- Destination-name derivation of `main` (`main.rs` line 139):
`url.split('/').last().unwrap_or("downloaded_file")`. -/
def fileNameFor (url : String) : String :=
  String.mk (((splitSlash url.toList).getLast?).getD "downloaded_file".toList)

/-- One chunk delivered by the response byte stream together with the
outcome that `file.write_all(&chunk)` has for it (`none` = the write
succeeds, `some e` = it fails with I/O error `e`).  Chunk payloads are
byte lists. -/
structure Chunk where
  bytes : List Nat
  writeErr : Option String
deriving DecidableEq, Repr

/-- Decidable equality for `Except`, needed so the models below are
fully executable. -/
instance {α β : Type} [DecidableEq α] [DecidableEq β] : DecidableEq (Except α β) :=
  fun x y =>
    match x, y with
    | Except.ok a, Except.ok b =>
      if h : a = b then isTrue (by rw [h])
      else isFalse (fun hc => h (by injection hc))
    | Except.error a, Except.error b =>
      if h : a = b then isTrue (by rw [h])
      else isFalse (fun hc => h (by injection hc))
    | Except.ok _, Except.error _ => isFalse (fun hc => Except.noConfusion hc)
    | Except.error _, Except.ok _ => isFalse (fun hc => Except.noConfusion hc)

/-- The parts of the HTTP response that `download_file` consumes: the
declared content length (`response.content_length()`) and the stream of
chunk items (`response.bytes_stream()`), each item either a chunk or a
transport error. -/
structure HttpResponse where
  content_length : Option Nat
  chunks : List (Except String Chunk)
deriving DecidableEq, Repr

/-- The `while let Some(item) = stream.next().await` loop of
`download_file` (`main.rs` lines 69-75).  State: the shared stats and
the destination file's contents.  For each chunk, in this order: a
transport error aborts with `ReqwestError` (`item?`), a failed
`write_all` aborts with `IoError` leaving the file as it was, and only
after a successful write is the chunk's length added to
`stats.total_bytes`. -/
def streamLoop : List (Except String Chunk) → DownloadStats → List Nat →
    DownloadStats × List Nat × Except DownloadError Unit
  | [], s, f => (s, f, Except.ok ())
  | Except.error e :: _, s, f => (s, f, Except.error (DownloadError.ReqwestError e))
  | Except.ok ch :: rest, s, f =>
    match ch.writeErr with
    | some e => (s, f, Except.error (DownloadError.IoError e))
    | none => streamLoop rest (addTotalBytes s ch.bytes.length) (f ++ ch.bytes)

/-- `download_file` (`main.rs` lines 58-78).  Inputs: the result of
`client.get(url).send().await` (`Except.error` = send failure), the
outcome of `File::create` (`some e` = failure), and the starting shared
stats.  Output: the final shared stats, the destination file (`none` =
never created, `some bs` = on disk with contents `bs`; a created file is
truncated to `[]`), and the job's outcome.  The content length
(`unwrap_or(0)`) is added to `stats.total_size` before the file is
created and before any streaming. -/
def downloadFile (send : Except String HttpResponse) (createErr : Option String)
    (s : DownloadStats) : DownloadStats × Option (List Nat) × Except DownloadError Unit :=
  match send with
  | Except.error e => (s, none, Except.error (DownloadError.ReqwestError e))
  | Except.ok resp =>
    let s1 := addTotalSize s (resp.content_length.getD 0)
    match createErr with
    | some e => (s1, none, Except.error (DownloadError.IoError e))
    | none =>
      match streamLoop resp.chunks s1 [] with
      | (s2, f, out) => (s2, some f, out)

/-- The two mutations the program ever performs on the shared
`DownloadStats`: `total_bytes += n` (`main.rs` line 74) and
`total_size += n` (`main.rs` line 64).  No code path decrements or
resets either counter. -/
inductive StatsOp
  | addBytes (n : Nat)
  | addSize (n : Nat)
deriving DecidableEq, Repr

/-- Apply one mutation. -/
def applyOp (s : DownloadStats) : StatsOp → DownloadStats
  | StatsOp.addBytes n => addTotalBytes s n
  | StatsOp.addSize n => addTotalSize s n

/-- Apply a sequence of mutations in order. -/
def applyOps (s : DownloadStats) (ops : List StatsOp) : DownloadStats :=
  ops.foldl applyOp s

/-- The `total_bytes` increments a stream performs: one `addBytes` per
chunk whose write succeeds, stopping at the first transport or write
error. -/
def streamOps : List (Except String Chunk) → List StatsOp
  | [] => []
  | Except.error _ :: _ => []
  | Except.ok ch :: rest =>
    match ch.writeErr with
    | some _ => []
    | none => StatsOp.addBytes ch.bytes.length :: streamOps rest

/-- The full sequence of shared-stats mutations one `download_file` call
performs. -/
def downloadOps (send : Except String HttpResponse) (createErr : Option String) :
    List StatsOp :=
  match send with
  | Except.error _ => []
  | Except.ok resp =>
    StatsOp.addSize (resp.content_length.getD 0) ::
      (match createErr with
       | some _ => []
       | none => streamOps resp.chunks)

/-- The observable effects of one invocation of `main` (`main.rs`
lines 111-167). -/
structure MainResult where
  usagePrinted : Bool
  clientBuilt : Bool
  spawnedUrls : List String
  createAttempts : List String
  reporterSpawned : Bool
  reporterAborted : Bool
  clearedRender : Bool
  printedCompletion : Bool
  exitCode : Nat
deriving DecidableEq, Repr

/-- The drain loop `for handle in handles { handle.await?? }` (`main.rs`
lines 151-153) over the per-task outcomes: the first error returns from
`main` immediately; otherwise the loop completes with `ok`. -/
def drain : List (Except DownloadError Unit) → Except DownloadError Unit
  | [] => Except.ok ()
  | Except.ok () :: rest => drain rest
  | Except.error e :: _ => Except.error e

/-- The control flow of `main` (`main.rs` lines 111-167).  `args` is the
full argument vector (`env::args`, program name first); `buildOk` is
whether `Client::builder()...build()` succeeds; `results` are the
outcomes of the spawned download tasks in spawn order (task-join/panic
errors do not arise in this program and are not modelled).
With fewer than two arguments, `main` prints usage and exits with
status 1 before building the client or spawning anything.  Otherwise it
builds the client, spawns the reporter task and one download task per
URL (deriving each destination name), then drains the join handles.  A
first error propagates out of `main` (exit 1) without aborting the
reporter, clearing the display, or printing the completion message;
if every task succeeded, `main` aborts the reporter, clears the display
from row 3 down, prints "All downloads completed." and exits 0. -/
def runMain (args : List String) (buildOk : Bool)
    (results : List (Except DownloadError Unit)) : MainResult :=
  if args.length < 2 then
    { usagePrinted := true, clientBuilt := false, spawnedUrls := [],
      createAttempts := [], reporterSpawned := false, reporterAborted := false,
      clearedRender := false, printedCompletion := false, exitCode := 1 }
  else if buildOk then
    let urls := args.drop 1
    match drain results with
    | Except.error _ =>
      { usagePrinted := false, clientBuilt := true, spawnedUrls := urls,
        createAttempts := urls.map fileNameFor, reporterSpawned := true,
        reporterAborted := false, clearedRender := false,
        printedCompletion := false, exitCode := 1 }
    | Except.ok () =>
      { usagePrinted := false, clientBuilt := true, spawnedUrls := urls,
        createAttempts := urls.map fileNameFor, reporterSpawned := true,
        reporterAborted := true, clearedRender := true,
        printedCompletion := true, exitCode := 0 }
  else
    { usagePrinted := false, clientBuilt := false, spawnedUrls := [],
      createAttempts := [], reporterSpawned := false, reporterAborted := false,
      clearedRender := false, printedCompletion := false, exitCode := 1 }

/-- The two shared counters of `DownloadStats` that concurrent tasks
touch (`start_time` is written once at construction and only read
afterwards). -/
inductive SField
  | bytesF
  | sizeF
deriving DecidableEq, Repr

/-- What a task does with the shared stats inside one critical section
of `stats.lock().await`:
* `writer f d` is one `+=` update (`main.rs` lines 62-65 and 73-74):
  acquire, read field `f`, write back the read value plus `d`, release;
* `reader` is one reporter tick's read (`main.rs` lines 83-88): acquire,
  read `total_bytes`, read `total_size` and record the observation,
  release. -/
inductive TaskKind
  | writer (f : SField) (d : Nat)
  | reader
deriving DecidableEq, Repr

/-- A task of the lock machine: its kind, its program counter and its
local register (the value a `+=` has read, or the reporter's copy of
`total_bytes`). -/
structure LTask where
  kind : TaskKind
  pc : Nat
  reg : Nat
deriving DecidableEq, Repr

/-- A configuration of the lock machine: the two shared counters, who
holds the `Mutex` (`none` = free), the tasks, and the list of
observations reporter ticks have recorded (most recent first). -/
structure Conf where
  bytes : Nat
  size : Nat
  lockHolder : Option Nat
  tasks : List LTask
  obs : List (Nat × Nat)
deriving DecidableEq, Repr

/-- Read one shared field. -/
def getF : SField → Conf → Nat
  | SField.bytesF, c => c.bytes
  | SField.sizeF, c => c.size

/-- Write one shared field. -/
def setF : SField → Nat → Conf → Conf
  | SField.bytesF, v, c => { c with bytes := v }
  | SField.sizeF, v, c => { c with size := v }

/-- One micro-step of task `i`.  Every access to the shared counters
requires holding the lock, exactly as in the Rust code where the
counters are only reachable through the `MutexGuard` returned by
`stats.lock().await`; `acquire` blocks (is disabled) while another task
holds the lock.  Program counters: a writer is at 0 before `acquire`,
1 before its read, 2 before its write-back, 3 before `release` (the
guard drop), 4 when done; a reader is at 0 before `acquire`, 1 before
reading `total_bytes`, 2 before reading `total_size` (recording its
observation), 3 before `release`, 4 when done. -/
def stepAt (c : Conf) (i : Nat) (t : LTask) : Option Conf :=
  match t.kind with
  | TaskKind.writer f d =>
    if t.pc = 0 then
      if c.lockHolder = none then
        some { c with lockHolder := some i, tasks := c.tasks.set i { t with pc := 1 } }
      else none
    else if t.pc = 1 then
      if c.lockHolder = some i then
        some { c with tasks := c.tasks.set i { t with pc := 2, reg := getF f c } }
      else none
    else if t.pc = 2 then
      if c.lockHolder = some i then
        some (setF f (t.reg + d) { c with tasks := c.tasks.set i { t with pc := 3 } })
      else none
    else if t.pc = 3 then
      if c.lockHolder = some i then
        some { c with lockHolder := none, tasks := c.tasks.set i { t with pc := 4 } }
      else none
    else none
  | TaskKind.reader =>
    if t.pc = 0 then
      if c.lockHolder = none then
        some { c with lockHolder := some i, tasks := c.tasks.set i { t with pc := 1 } }
      else none
    else if t.pc = 1 then
      if c.lockHolder = some i then
        some { c with tasks := c.tasks.set i { t with pc := 2, reg := c.bytes } }
      else none
    else if t.pc = 2 then
      if c.lockHolder = some i then
        some { c with obs := (t.reg, c.size) :: c.obs,
                      tasks := c.tasks.set i { t with pc := 3 } }
      else none
    else if t.pc = 3 then
      if c.lockHolder = some i then
        some { c with lockHolder := none, tasks := c.tasks.set i { t with pc := 4 } }
      else none
    else none

/-- One micro-step of task `i` (see `stepAt` for the per-task cases). -/
def stepTask (c : Conf) (i : Nat) : Option Conf :=
  match c.tasks[i]? with
  | none => none
  | some t => stepAt c i t

/-- Run the lock machine under a schedule (a list of task indices);
`none` when the schedule picks a task that cannot step. -/
def run : Conf → List Nat → Option Conf
  | c, [] => some c
  | c, i :: sched =>
    match stepTask c i with
    | none => none
    | some c2 => run c2 sched

/-- The initial configuration: counters at their starting values, lock
free, every task at pc 0, no observations yet. -/
def initConf (b0 s0 : Nat) (kinds : List TaskKind) : Conf :=
  { bytes := b0, size := s0, lockHolder := none,
    tasks := kinds.map (fun k => { kind := k, pc := 0, reg := 0 }), obs := [] }

/-- The delta a task kind contributes to field `f` once its update has
been applied. -/
def fieldDelta (f : SField) : TaskKind → Nat
  | TaskKind.writer f2 d => if f2 = f then d else 0
  | TaskKind.reader => 0

/-- The sum of the deltas to field `f` of those tasks whose write-back
has already happened (pc past the write). -/
def doneSumF (f : SField) : List LTask → Nat
  | [] => 0
  | t :: ts => (if 3 ≤ t.pc then fieldDelta f t.kind else 0) + doneSumF f ts

/-- The sum of the deltas to field `f` of a selected subset of the task
kinds. -/
def subSum (f : SField) : List TaskKind → List Bool → Nat
  | [], _ => 0
  | _, [] => 0
  | k :: ks, b :: bs => (if b then fieldDelta f k else 0) + subSum f ks bs

/-- An observation is fully applied when each of its two components is
the initial value of its counter plus the deltas of some subset of the
updates: no torn or half-applied update is visible. -/
def ValidObs (b0 s0 : Nat) (kinds : List TaskKind) (o : Nat × Nat) : Prop :=
  (∃ sel : List Bool, o.1 = b0 + subSum SField.bytesF kinds sel) ∧
  (∃ sel : List Bool, o.2 = s0 + subSum SField.sizeF kinds sel)

/-- A task is inside its critical section (holds the lock): past
`acquire`, not yet past `release`. -/
def inCrit (t : LTask) : Prop := 1 ≤ t.pc ∧ t.pc ≤ 3

instance (t : LTask) : Decidable (inCrit t) := by
  unfold inCrit; infer_instance

/-- A stream in which every chunk arrives intact and every write
succeeds. -/
def okStream (pre : List (List Nat)) : List (Except String Chunk) :=
  pre.map (fun bs => Except.ok { bytes := bs, writeErr := none })

/-- The inductive invariant of the lock machine, relative to the initial
counter values `b0`, `s0` and task kinds `kinds`:
the kinds never change; each counter is its initial value plus the
deltas of exactly the writes already applied; only the lock holder is
inside a critical section; a task that has done its read and not yet its
write-back holds in its register the current value of the field it read;
and every recorded observation is fully applied. -/
def LockInv (b0 s0 : Nat) (kinds : List TaskKind) (c : Conf) : Prop :=
  c.tasks.map LTask.kind = kinds ∧
  c.bytes = b0 + doneSumF SField.bytesF c.tasks ∧
  c.size = s0 + doneSumF SField.sizeF c.tasks ∧
  (∀ (i : Nat) (t : LTask), c.tasks[i]? = some t → inCrit t → c.lockHolder = some i) ∧
  (∀ (i : Nat) (t : LTask), c.tasks[i]? = some t → t.pc = 2 →
      t.reg = (match t.kind with
               | TaskKind.writer f _ => getF f c
               | TaskKind.reader => c.bytes)) ∧
  (∀ o ∈ c.obs, ValidObs b0 s0 kinds o)

theorem splitSlash_ne_nil (l : List Char) : splitSlash l ≠ [] := by
  induction l with
  | nil => simp [splitSlash]
  | cons c rest ih =>
    by_cases h : c = '/'
    · simp [splitSlash, h]
    · simp only [splitSlash, if_neg h]
      cases hr : splitSlash rest <;> simp

theorem drain_ok_iff (rs : List (Except DownloadError Unit)) :
    drain rs = Except.ok () ↔ ∀ r ∈ rs, r = Except.ok () := by
  induction rs with
  | nil => simp [drain]
  | cons r rest ih =>
    cases r with
    | ok u => cases u; simp [drain, ih]
    | error e => simp [drain]

/-- C1, counterexample.  The claim says a zero elapsed time is guarded
against and makes the computed speed 0; in the code the division is
unguarded, so a zero elapsed time produces a non-finite value (modelled
as `none`), not 0. -/
theorem reporterSpeed_zero_elapsed_not_zero :
    reporterSpeed 5 0 = none ∧ reporterSpeed 5 0 ≠ some 0 := by
  constructor <;> simp [reporterSpeed]

/-- C1, amended.  For every reporter tick with positive elapsed time the
computed speed is finite and nonnegative; at elapsed time 0 the
unguarded division yields a non-finite value rather than 0 (in the
running program elapsed is positive at every tick, since the first tick
happens only after a 500 ms sleep). -/
theorem reporterSpeed_nonneg (b : Nat) (e : ℚ) (h : 0 < e) :
    ∃ q, reporterSpeed b e = some q ∧ 0 ≤ q := by
  refine ⟨(b : ℚ) / e / 1000000, ?_, ?_⟩
  · simp [reporterSpeed, h.ne']
  · positivity

/-- Witness for `reporterSpeed_nonneg` at `b = 5`, `e = 1`. -/
theorem reporterSpeed_nonneg_witness :
    0 < (1 : ℚ) ∧ ∃ q, reporterSpeed 5 1 = some q ∧ 0 ≤ q :=
  ⟨by norm_num, reporterSpeed_nonneg 5 1 (by norm_num)⟩

/-- C2, counterexample.  For a URL with no final path segment (the empty
URL, or one ending in `/`) the derived destination name is the empty
string, not the default `downloaded_file`: `split('/').last()` always
returns `Some` piece (possibly empty), so the `unwrap_or` fallback is
unreachable. -/
theorem fileNameFor_no_segment_not_default :
    fileNameFor "" = "" ∧ fileNameFor "http://example.com/" = "" ∧
      ("" : String) ≠ "downloaded_file" := by
  refine ⟨by decide, by decide, by decide⟩

/-- C2, amended.  The destination filename is always the final
`/`-delimited piece of the URL (which is the empty string when the URL
is empty or ends in `/`); the fixed default name `downloaded_file` is
never used, because splitting always yields at least one piece. -/
theorem fileNameFor_eq_last_piece (url : String) :
    ∃ seg, (splitSlash url.toList).getLast? = some seg ∧
      fileNameFor url = String.mk seg := by
  cases hl : (splitSlash url.toList).getLast? with
  | none =>
    exact absurd (List.getLast?_eq_none_iff.mp hl) (splitSlash_ne_nil _)
  | some seg =>
    refine ⟨seg, rfl, ?_⟩
    have hdef : fileNameFor url =
        String.mk (((splitSlash url.toList).getLast?).getD "downloaded_file".toList) := rfl
    rw [hdef, hl]
    rfl

/-- C4, counterexample.  When `totalBytes = 0` the percent is not
omitted from the display: the progress line is printed unconditionally
on every tick and shows `0`. -/
theorem displayedPercent_zero_total_displayed :
    displayedPercent 5 0 ≠ none ∧ displayedPercent 5 0 = some 0 := by
  constructor
  · simp [displayedPercent]
  · simp [displayedPercent, progressValue]

/-- C4, amended.  On every reporter tick, if `totalBytes > 0` the
displayed percent equals `100 * bytesDownloaded / totalBytes`; when
`totalBytes = 0` the percent is still displayed, as `0`. -/
theorem displayedPercent_formula (b t : Nat) :
    (0 < t → displayedPercent b t = some (100 * (b : ℚ) / t)) ∧
      displayedPercent b 0 = some 0 := by
  constructor
  · intro ht
    simp only [displayedPercent, progressValue, if_pos ht]
    congr 1
    ring
  · simp [displayedPercent, progressValue]

/-- Witness for `displayedPercent_formula` at `b = 1`, `t = 2`. -/
theorem displayedPercent_formula_witness :
    displayedPercent 1 2 = some (100 * (1 : ℚ) / 2) ∧
      displayedPercent 1 0 = some 0 :=
  ⟨(displayedPercent_formula 1 2).1 (by norm_num), (displayedPercent_formula 1 2).2⟩

/-- C6.  Invoked with zero URL arguments (only the program name), `main`
prints the usage message, exits with status 1, builds no HTTP client,
spawns no tasks (neither downloaders nor the reporter) and attempts to
create no output file. -/
theorem runMain_usage (prog : String) (buildOk : Bool)
    (results : List (Except DownloadError Unit)) :
    (runMain [prog] buildOk results).usagePrinted = true ∧
    (runMain [prog] buildOk results).exitCode = 1 ∧
    (runMain [prog] buildOk results).clientBuilt = false ∧
    (runMain [prog] buildOk results).spawnedUrls = [] ∧
    (runMain [prog] buildOk results).reporterSpawned = false ∧
    (runMain [prog] buildOk results).createAttempts = [] := by
  simp [runMain]

/-- C5.  In a run that gets past the usage check and client
construction, `main` exits 0 exactly when every download task
succeeded: the drain loop propagates the first error out of `main`
(exit 1), and completes normally (exit 0) only when all outcomes are
`Ok`. -/
theorem exit_success_iff_all_ok (args : List String)
    (results : List (Except DownloadError Unit)) (h : 2 ≤ args.length) :
    (runMain args true results).exitCode = 0 ↔ ∀ r ∈ results, r = Except.ok () := by
  have hlt : ¬ args.length < 2 := not_lt.mpr h
  rw [← drain_ok_iff]
  cases hd : drain results with
  | ok u => cases u; simp [runMain, hlt, hd]
  | error e => simp [runMain, hlt, hd]

/-- Witness for `exit_success_iff_all_ok` on a two-argument invocation
with one successful job. -/
theorem exit_success_iff_all_ok_witness :
    2 ≤ (["prog", "http://x/a"] : List String).length ∧
      ((runMain ["prog", "http://x/a"] true [Except.ok ()]).exitCode = 0 ↔
        ∀ r ∈ ([Except.ok ()] : List (Except DownloadError Unit)), r = Except.ok ()) :=
  ⟨by decide, exit_success_iff_all_ok ["prog", "http://x/a"] [Except.ok ()] (by decide)⟩

/-- C3, counterexample.  When the drain loop observes an error, the wait
terminates early with `handle.await??` propagating the error out of
`main`: the reporter is not aborted and the completion message is not
printed. -/
theorem error_skips_abort_and_message :
    (runMain ["prog", "http://x/a"] true
        [Except.error (DownloadError.Other "boom")]).reporterAborted = false ∧
    (runMain ["prog", "http://x/a"] true
        [Except.error (DownloadError.Other "boom")]).printedCompletion = false := by
  constructor <;> rfl

/-- C3, amended.  After the wait over the download tasks completes on
the all-success path, `main` aborts the reporter, clears the stale
render and prints the completion message; when the first observed error
terminates the wait early, `main` returns that error immediately and
does none of the three. -/
theorem coordinator_final_actions (args : List String)
    (results : List (Except DownloadError Unit)) (h : 2 ≤ args.length) :
    (drain results = Except.ok () →
      (runMain args true results).reporterAborted = true ∧
      (runMain args true results).clearedRender = true ∧
      (runMain args true results).printedCompletion = true) ∧
    (∀ e, drain results = Except.error e →
      (runMain args true results).reporterAborted = false ∧
      (runMain args true results).clearedRender = false ∧
      (runMain args true results).printedCompletion = false) := by
  have hlt : ¬ args.length < 2 := not_lt.mpr h
  constructor
  · intro hd; simp [runMain, hlt, hd]
  · intro e hd; simp [runMain, hlt, hd]

/-- Witness for `coordinator_final_actions` on a successful
single-download run. -/
theorem coordinator_final_actions_witness :
    (runMain ["prog", "http://x/a"] true [Except.ok ()]).reporterAborted = true ∧
    (runMain ["prog", "http://x/a"] true [Except.ok ()]).clearedRender = true ∧
    (runMain ["prog", "http://x/a"] true [Except.ok ()]).printedCompletion = true :=
  (coordinator_final_actions ["prog", "http://x/a"] [Except.ok ()] (by decide)).1 (by decide)

theorem addTotalBytes_zero (s : DownloadStats) : addTotalBytes s 0 = s := by
  simp [addTotalBytes]

theorem addTotalBytes_add (s : DownloadStats) (a b : Nat) :
    addTotalBytes (addTotalBytes s a) b = addTotalBytes s (a + b) := by
  simp [addTotalBytes, Nat.add_assoc]

theorem streamLoop_okStream_append (pre : List (List Nat))
    (tail : List (Except String Chunk)) (s : DownloadStats) (f : List Nat) :
    streamLoop (okStream pre ++ tail) s f =
      streamLoop tail (addTotalBytes s (pre.map List.length).sum) (f ++ pre.join) := by
  induction pre generalizing s f with
  | nil => simp [okStream, addTotalBytes_zero]
  | cons bs rest ih =>
    have h1 : okStream (bs :: rest) =
        Except.ok { bytes := bs, writeErr := none } :: okStream rest := rfl
    rw [h1, List.cons_append]
    have h2 : streamLoop
        (Except.ok { bytes := bs, writeErr := none } :: (okStream rest ++ tail)) s f =
        streamLoop (okStream rest ++ tail) (addTotalBytes s bs.length) (f ++ bs) := rfl
    rw [h2, ih]
    simp [addTotalBytes_add, List.append_assoc]

theorem streamLoop_total_size (chunks : List (Except String Chunk))
    (s : DownloadStats) (f : List Nat) :
    ((streamLoop chunks s f).1).total_size = s.total_size := by
  induction chunks generalizing s f with
  | nil => rfl
  | cons item rest ih =>
    cases item with
    | error e => rfl
    | ok ch =>
      cases hw : ch.writeErr with
      | some e => simp [streamLoop, hw]
      | none => simp [streamLoop, hw, ih, addTotalBytes]

/-- C7.  Within a download's stream, each chunk is written to the file
before its length is counted, and a write failure aborts the job at
once with a filesystem-error outcome: after any run of successfully
written chunks `pre`, a chunk `b0` whose write fails yields
`IoError`, adds only the lengths of `pre` (not of `b0`) to
`total_bytes`, ignores the rest of the stream, and leaves the partial
file contents `pre.join` in place (third conjunct: through
`download_file`, the partial file stays on disk — `some`, not removed);
with no failure the stream completes with `Ok` having written and
counted exactly the chunks in order. -/
theorem chunk_write_then_count (pre : List (List Nat)) (b0 : List Nat) (e : String)
    (rest : List (Except String Chunk)) (s : DownloadStats) (f : List Nat) (cl : Option Nat) :
    streamLoop (okStream pre ++ Except.ok { bytes := b0, writeErr := some e } :: rest) s f =
      (addTotalBytes s (pre.map List.length).sum, f ++ pre.join,
        Except.error (DownloadError.IoError e)) ∧
    streamLoop (okStream pre) s f =
      (addTotalBytes s (pre.map List.length).sum, f ++ pre.join, Except.ok ()) ∧
    downloadFile
        (Except.ok { content_length := cl,
                     chunks := okStream pre ++ Except.ok { bytes := b0, writeErr := some e } :: rest })
        none s =
      (addTotalBytes (addTotalSize s (cl.getD 0)) (pre.map List.length).sum,
        some pre.join, Except.error (DownloadError.IoError e)) := by
  refine ⟨?_, ?_, ?_⟩
  · rw [streamLoop_okStream_append]
    rfl
  · have h := streamLoop_okStream_append pre [] s f
    simpa using h
  · show (let r := streamLoop (okStream pre ++ _) (addTotalSize s (cl.getD 0)) [];
          (r.1, some r.2.1, r.2.2)) = _
    rw [streamLoop_okStream_append]
    rfl

/-- C9.  A reported content length is added to the shared `total_size`
before streaming begins and is never subtracted afterwards, whatever
happens to the job later (file-creation failure, transport error or
write error mid-stream); and a failed send leaves the stats untouched
(second conjunct). -/
theorem content_length_never_rolled_back (n : Nat)
    (chunks : List (Except String Chunk)) (createErr : Option String)
    (s : DownloadStats) :
    ((downloadFile (Except.ok { content_length := some n, chunks := chunks })
        createErr s).1).total_size = s.total_size + n ∧
    ∀ e, (downloadFile (Except.error e) createErr s).1 = s := by
  constructor
  · cases createErr with
    | some e => simp [downloadFile, addTotalSize]
    | none =>
      show ((streamLoop chunks (addTotalSize s n) []).1).total_size = s.total_size + n
      rw [streamLoop_total_size]
      rfl
  · intro e; rfl

theorem le_applyOps (s : DownloadStats) (ops : List StatsOp) :
    s.total_bytes ≤ (applyOps s ops).total_bytes ∧
      s.total_size ≤ (applyOps s ops).total_size := by
  induction ops generalizing s with
  | nil => exact ⟨le_refl _, le_refl _⟩
  | cons op rest ih =>
    have hstep : applyOps s (op :: rest) = applyOps (applyOp s op) rest := rfl
    rw [hstep]
    have h2 := ih (applyOp s op)
    cases op with
    | addBytes n =>
      simp only [applyOp, addTotalBytes] at h2
      exact ⟨le_trans (Nat.le_add_right _ n) h2.1, h2.2⟩
    | addSize n =>
      simp only [applyOp, addTotalSize] at h2
      exact ⟨h2.1, le_trans (Nat.le_add_right _ n) h2.2⟩

theorem streamLoop_stats_eq_applyOps (chunks : List (Except String Chunk))
    (s : DownloadStats) (f : List Nat) :
    (streamLoop chunks s f).1 = applyOps s (streamOps chunks) := by
  induction chunks generalizing s f with
  | nil => rfl
  | cons item rest ih =>
    cases item with
    | error e => rfl
    | ok ch =>
      cases hw : ch.writeErr with
      | some e => simp [streamLoop, streamOps, hw, applyOps]
      | none =>
        have h1 : streamLoop (Except.ok ch :: rest) s f =
            streamLoop rest (addTotalBytes s ch.bytes.length) (f ++ ch.bytes) := by
          simp [streamLoop, hw]
        have h2 : streamOps (Except.ok ch :: rest) =
            StatsOp.addBytes ch.bytes.length :: streamOps rest := by
          simp [streamOps, hw]
        rw [h1, h2, ih]
        rfl

/-- C8.  Every mutation the program performs on the shared stats is one
of the two increments `StatsOp`; under any sequence of them both
counters are monotonically non-decreasing (every intermediate state is
bounded by every later one), and each `download_file` call's effect on
the shared stats is exactly such a sequence (second conjunct), so
neither counter is ever decremented or reset. -/
theorem stats_monotone (s : DownloadStats) (ops : List StatsOp) (i : Nat) :
    ((applyOps s (ops.take i)).total_bytes ≤ (applyOps s ops).total_bytes ∧
      (applyOps s (ops.take i)).total_size ≤ (applyOps s ops).total_size) ∧
    ∀ send createErr, (downloadFile send createErr s).1 =
      applyOps s (downloadOps send createErr) := by
  constructor
  · have hsplit : applyOps s ops = applyOps (applyOps s (ops.take i)) (ops.drop i) := by
      conv_lhs => rw [← List.take_append_drop i ops]
      exact List.foldl_append _ _ _ _
    rw [hsplit]
    exact le_applyOps (applyOps s (ops.take i)) (ops.drop i)
  · intro send createErr
    cases send with
    | error e => rfl
    | ok resp =>
      cases createErr with
      | some e => rfl
      | none =>
        show (streamLoop resp.chunks (addTotalSize s (resp.content_length.getD 0)) []).1 = _
        rw [streamLoop_stats_eq_applyOps]
        rfl

theorem map_kind_set (ts : List LTask) (i : Nat) (t t2 : LTask)
    (h : ts[i]? = some t) (hk : t2.kind = t.kind) :
    (ts.set i t2).map LTask.kind = ts.map LTask.kind := by
  induction ts generalizing i with
  | nil => simp at h
  | cons a as ih =>
    cases i with
    | zero =>
      have ha : a = t := by simpa using h
      subst ha
      simp [List.set, hk]
    | succ n =>
      have h2 : as[n]? = some t := by simpa using h
      simp [List.set, ih n h2]

theorem doneSumF_set (f : SField) (ts : List LTask) (i : Nat) (t t2 : LTask)
    (h : ts[i]? = some t) :
    doneSumF f (ts.set i t2) + (if 3 ≤ t.pc then fieldDelta f t.kind else 0)
      = doneSumF f ts + (if 3 ≤ t2.pc then fieldDelta f t2.kind else 0) := by
  induction ts generalizing i with
  | nil => simp at h
  | cons a as ih =>
    cases i with
    | zero =>
      have ha : a = t := by simpa using h
      subst ha
      simp only [List.set, doneSumF]
      ring
    | succ n =>
      have h2 : as[n]? = some t := by simpa using h
      simp only [List.set, doneSumF]
      have h3 := ih n h2
      omega

theorem doneSumF_eq_subSum (f : SField) (ts : List LTask) :
    doneSumF f ts =
      subSum f (ts.map LTask.kind) (ts.map fun t => decide (3 ≤ t.pc)) := by
  induction ts with
  | nil => rfl
  | cons a as ih =>
    simp only [doneSumF, List.map_cons, subSum, ih]
    congr 1
    by_cases h3 : 3 ≤ a.pc
    · simp [h3]
    · simp [h3]

theorem doneSumF_initTasks (f : SField) (kinds : List TaskKind) :
    doneSumF f (kinds.map fun k => { kind := k, pc := 0, reg := 0 }) = 0 := by
  induction kinds with
  | nil => rfl
  | cons k ks ih => simp [doneSumF, ih]

theorem getElem?_set_self (ts : List LTask) (i : Nat) (t t2 : LTask)
    (h : ts[i]? = some t) : (ts.set i t2)[i]? = some t2 := by
  have hlt : i < ts.length := by
    rcases List.getElem?_eq_some.mp h with ⟨hlt, _⟩
    exact hlt
  exact List.getElem?_set_eq_of_lt t2 hlt

theorem getF_congr (f : SField) (c c2 : Conf) (hb : c2.bytes = c.bytes)
    (hs : c2.size = c.size) : getF f c2 = getF f c := by
  cases f <;> simp [getF, hb, hs]

theorem lockInv_init (b0 s0 : Nat) (kinds : List TaskKind) :
    LockInv b0 s0 kinds (initConf b0 s0 kinds) := by
  refine ⟨?_, ?_, ?_, ?_, ?_, ?_⟩
  · show (kinds.map fun k => ({ kind := k, pc := 0, reg := 0 } : LTask)).map LTask.kind = kinds
    rw [List.map_map]
    exact List.map_id kinds
  · simp [initConf, doneSumF_initTasks]
  · simp [initConf, doneSumF_initTasks]
  · intro i t ht hc
    simp only [initConf] at ht
    rw [List.getElem?_map _ _ i] at ht
    cases hk : kinds[i]? with
    | none => rw [hk] at ht; cases ht
    | some k =>
      rw [hk] at ht
      have : t.pc = 0 := by
        have h2 : ({ kind := k, pc := 0, reg := 0 } : LTask) = t := by simpa using ht
        rw [← h2]
      rw [inCrit, this] at hc
      omega
  · intro i t ht hpc
    simp only [initConf] at ht
    rw [List.getElem?_map _ _ i] at ht
    cases hk : kinds[i]? with
    | none => rw [hk] at ht; cases ht
    | some k =>
      rw [hk] at ht
      have h2 : ({ kind := k, pc := 0, reg := 0 } : LTask) = t := by simpa using ht
      rw [← h2] at hpc
      cases hpc
  · intro o ho
    simp [initConf] at ho

theorem lockInv_acquire (b0 s0 : Nat) (kinds : List TaskKind) (c : Conf) (i : Nat)
    (t : LTask) (hInv : LockInv b0 s0 kinds c) (ht : c.tasks[i]? = some t)
    (hfree : c.lockHolder = none) (hpc : t.pc = 0) :
    LockInv b0 s0 kinds
      { c with lockHolder := some i, tasks := c.tasks.set i { t with pc := 1 } } := by
  obtain ⟨hkinds, hbytes, hsize, hlock, hreg, hobs⟩ := hInv
  refine ⟨?_, ?_, ?_, ?_, ?_, ?_⟩
  · show (c.tasks.set i { t with pc := 1 }).map LTask.kind = kinds
    rw [map_kind_set c.tasks i t { t with pc := 1 } ht rfl]
    exact hkinds
  · show c.bytes = b0 + doneSumF SField.bytesF (c.tasks.set i { t with pc := 1 })
    have hd := doneSumF_set SField.bytesF c.tasks i t { t with pc := 1 } ht
    simp [hpc] at hd
    rw [hd]
    exact hbytes
  · show c.size = s0 + doneSumF SField.sizeF (c.tasks.set i { t with pc := 1 })
    have hd := doneSumF_set SField.sizeF c.tasks i t { t with pc := 1 } ht
    simp [hpc] at hd
    rw [hd]
    exact hsize
  · intro j t3 hj hc3
    show (some i : Option Nat) = some j
    by_cases hij : j = i
    · rw [hij]
    · rw [List.getElem?_set_ne (fun hh => hij hh.symm)] at hj
      have hthis := hlock j t3 hj hc3
      rw [hfree] at hthis
      exact Option.noConfusion hthis
  · intro j t3 hj hpc3
    by_cases hij : j = i
    · subst hij
      rw [getElem?_set_self c.tasks j t _ ht] at hj
      injection hj with hj2
      rw [← hj2] at hpc3
      simp at hpc3
    · rw [List.getElem?_set_ne (fun hh => hij hh.symm)] at hj
      have hold := hreg j t3 hj hpc3
      cases ht3k : t3.kind with
      | writer f2 d2 =>
        simp only [ht3k] at hold ⊢
        exact hold.trans (getF_congr f2 c
          { c with lockHolder := some i,
                   tasks := c.tasks.set i { t with pc := 1 } } rfl rfl).symm
      | reader =>
        simp only [ht3k] at hold ⊢
        exact hold
  · exact hobs

theorem setF_tasks (f : SField) (v : Nat) (c : Conf) : (setF f v c).tasks = c.tasks := by
  cases f <;> rfl

theorem setF_lockHolder (f : SField) (v : Nat) (c : Conf) :
    (setF f v c).lockHolder = c.lockHolder := by
  cases f <;> rfl

theorem setF_obs (f : SField) (v : Nat) (c : Conf) : (setF f v c).obs = c.obs := by
  cases f <;> rfl

theorem lockInv_read (b0 s0 : Nat) (kinds : List TaskKind) (c : Conf) (i : Nat)
    (t : LTask) (v : Nat) (hInv : LockInv b0 s0 kinds c) (ht : c.tasks[i]? = some t)
    (hheld : c.lockHolder = some i) (hpc : t.pc = 1)
    (hv : v = (match t.kind with
               | TaskKind.writer f _ => getF f c
               | TaskKind.reader => c.bytes)) :
    LockInv b0 s0 kinds { c with tasks := c.tasks.set i { t with pc := 2, reg := v } } := by
  obtain ⟨hkinds, hbytes, hsize, hlock, hreg, hobs⟩ := hInv
  refine ⟨?_, ?_, ?_, ?_, ?_, ?_⟩
  · show (c.tasks.set i { t with pc := 2, reg := v }).map LTask.kind = kinds
    rw [map_kind_set c.tasks i t { t with pc := 2, reg := v } ht rfl]
    exact hkinds
  · show c.bytes = b0 + doneSumF SField.bytesF (c.tasks.set i { t with pc := 2, reg := v })
    have hd := doneSumF_set SField.bytesF c.tasks i t { t with pc := 2, reg := v } ht
    simp [hpc] at hd
    rw [hd]
    exact hbytes
  · show c.size = s0 + doneSumF SField.sizeF (c.tasks.set i { t with pc := 2, reg := v })
    have hd := doneSumF_set SField.sizeF c.tasks i t { t with pc := 2, reg := v } ht
    simp [hpc] at hd
    rw [hd]
    exact hsize
  · intro j t3 hj hc3
    show c.lockHolder = some j
    by_cases hij : j = i
    · rw [hij]; exact hheld
    · rw [List.getElem?_set_ne (fun hh => hij hh.symm)] at hj
      exact hlock j t3 hj hc3
  · intro j t3 hj hpc3
    by_cases hij : j = i
    · subst hij
      rw [getElem?_set_self c.tasks j t _ ht] at hj
      injection hj with hj2
      rw [← hj2]
      cases htk : t.kind with
      | writer f2 d2 =>
        simp only [htk] at hv ⊢
        exact hv.trans (getF_congr f2 c
          { c with tasks := c.tasks.set j ⟨TaskKind.writer f2 d2, 2, v⟩ } rfl rfl).symm
      | reader =>
        simp only [htk] at hv ⊢
        exact hv
    · rw [List.getElem?_set_ne (fun hh => hij hh.symm)] at hj
      have hold := hreg j t3 hj hpc3
      cases ht3k : t3.kind with
      | writer f2 d2 =>
        simp only [ht3k] at hold ⊢
        exact hold.trans (getF_congr f2 c
          { c with tasks := c.tasks.set i { t with pc := 2, reg := v } } rfl rfl).symm
      | reader =>
        simp only [ht3k] at hold ⊢
        exact hold
  · exact hobs

theorem lockInv_store (b0 s0 : Nat) (kinds : List TaskKind) (c : Conf) (i : Nat)
    (t : LTask) (f : SField) (d : Nat) (hInv : LockInv b0 s0 kinds c)
    (ht : c.tasks[i]? = some t) (hheld : c.lockHolder = some i)
    (hk : t.kind = TaskKind.writer f d) (hpc : t.pc = 2) :
    LockInv b0 s0 kinds
      (setF f (t.reg + d) { c with tasks := c.tasks.set i { t with pc := 3 } }) := by
  obtain ⟨hkinds, hbytes, hsize, hlock, hreg, hobs⟩ := hInv
  have hri := hreg i t ht hpc
  rw [hk] at hri
  have hri2 : t.reg = getF f c := hri
  have hexcl : ∀ (j : Nat) (t3 : LTask), c.tasks[j]? = some t3 → ¬ j = i → ¬ t3.pc = 2 := by
    intro j t3 hj hij hpc3
    have hc3 : inCrit t3 := by rw [inCrit, hpc3]; omega
    have hl3 := hlock j t3 hj hc3
    rw [hheld] at hl3
    injection hl3 with hl4
    exact hij hl4.symm
  cases f with
  | bytesF =>
    refine ⟨?_, ?_, ?_, ?_, ?_, ?_⟩
    · show (c.tasks.set i { t with pc := 3 }).map LTask.kind = kinds
      rw [map_kind_set c.tasks i t { t with pc := 3 } ht rfl]
      exact hkinds
    · show t.reg + d = b0 + doneSumF SField.bytesF (c.tasks.set i { t with pc := 3 })
      have hd := doneSumF_set SField.bytesF c.tasks i t { t with pc := 3 } ht
      simp [hpc, hk, fieldDelta] at hd
      have hcb : t.reg = c.bytes := hri2
      simp only [hk]
      omega
    · show c.size = s0 + doneSumF SField.sizeF (c.tasks.set i { t with pc := 3 })
      have hd := doneSumF_set SField.sizeF c.tasks i t { t with pc := 3 } ht
      simp [hpc, hk, fieldDelta] at hd
      simp only [hk]
      rw [hd]
      exact hsize
    · intro j t3 hj hc3
      show c.lockHolder = some j
      by_cases hij : j = i
      · rw [hij]; exact hheld
      · rw [show (setF SField.bytesF (t.reg + d)
              { c with tasks := c.tasks.set i { t with pc := 3 } }).tasks
            = c.tasks.set i { t with pc := 3 } from rfl] at hj
        rw [List.getElem?_set_ne (fun hh => hij hh.symm)] at hj
        exact hlock j t3 hj hc3
    · intro j t3 hj hpc3
      rw [show (setF SField.bytesF (t.reg + d)
            { c with tasks := c.tasks.set i { t with pc := 3 } }).tasks
          = c.tasks.set i { t with pc := 3 } from rfl] at hj
      by_cases hij : j = i
      · subst hij
        rw [getElem?_set_self c.tasks j t _ ht] at hj
        injection hj with hj2
        rw [← hj2] at hpc3
        simp at hpc3
      · rw [List.getElem?_set_ne (fun hh => hij hh.symm)] at hj
        exact absurd hpc3 (hexcl j t3 hj hij)
    · exact hobs
  | sizeF =>
    refine ⟨?_, ?_, ?_, ?_, ?_, ?_⟩
    · show (c.tasks.set i { t with pc := 3 }).map LTask.kind = kinds
      rw [map_kind_set c.tasks i t { t with pc := 3 } ht rfl]
      exact hkinds
    · show c.bytes = b0 + doneSumF SField.bytesF (c.tasks.set i { t with pc := 3 })
      have hd := doneSumF_set SField.bytesF c.tasks i t { t with pc := 3 } ht
      simp [hpc, hk, fieldDelta] at hd
      simp only [hk]
      rw [hd]
      exact hbytes
    · show t.reg + d = s0 + doneSumF SField.sizeF (c.tasks.set i { t with pc := 3 })
      have hd := doneSumF_set SField.sizeF c.tasks i t { t with pc := 3 } ht
      simp [hpc, hk, fieldDelta] at hd
      have hcs : t.reg = c.size := hri2
      simp only [hk]
      omega
    · intro j t3 hj hc3
      show c.lockHolder = some j
      by_cases hij : j = i
      · rw [hij]; exact hheld
      · rw [show (setF SField.sizeF (t.reg + d)
              { c with tasks := c.tasks.set i { t with pc := 3 } }).tasks
            = c.tasks.set i { t with pc := 3 } from rfl] at hj
        rw [List.getElem?_set_ne (fun hh => hij hh.symm)] at hj
        exact hlock j t3 hj hc3
    · intro j t3 hj hpc3
      rw [show (setF SField.sizeF (t.reg + d)
            { c with tasks := c.tasks.set i { t with pc := 3 } }).tasks
          = c.tasks.set i { t with pc := 3 } from rfl] at hj
      by_cases hij : j = i
      · subst hij
        rw [getElem?_set_self c.tasks j t _ ht] at hj
        injection hj with hj2
        rw [← hj2] at hpc3
        simp at hpc3
      · rw [List.getElem?_set_ne (fun hh => hij hh.symm)] at hj
        exact absurd hpc3 (hexcl j t3 hj hij)
    · exact hobs

theorem lockInv_obsRec (b0 s0 : Nat) (kinds : List TaskKind) (c : Conf) (i : Nat)
    (t : LTask) (hInv : LockInv b0 s0 kinds c) (ht : c.tasks[i]? = some t)
    (hheld : c.lockHolder = some i) (hk : t.kind = TaskKind.reader) (hpc : t.pc = 2) :
    LockInv b0 s0 kinds
      { c with obs := (t.reg, c.size) :: c.obs,
               tasks := c.tasks.set i { t with pc := 3 } } := by
  obtain ⟨hkinds, hbytes, hsize, hlock, hreg, hobs⟩ := hInv
  have hri := hreg i t ht hpc
  rw [hk] at hri
  have hri2 : t.reg = c.bytes := hri
  refine ⟨?_, ?_, ?_, ?_, ?_, ?_⟩
  · show (c.tasks.set i { t with pc := 3 }).map LTask.kind = kinds
    rw [map_kind_set c.tasks i t { t with pc := 3 } ht rfl]
    exact hkinds
  · show c.bytes = b0 + doneSumF SField.bytesF (c.tasks.set i { t with pc := 3 })
    have hd := doneSumF_set SField.bytesF c.tasks i t { t with pc := 3 } ht
    simp [hpc, hk, fieldDelta] at hd
    simp only [hk]
    rw [hd]
    exact hbytes
  · show c.size = s0 + doneSumF SField.sizeF (c.tasks.set i { t with pc := 3 })
    have hd := doneSumF_set SField.sizeF c.tasks i t { t with pc := 3 } ht
    simp [hpc, hk, fieldDelta] at hd
    simp only [hk]
    rw [hd]
    exact hsize
  · intro j t3 hj hc3
    show c.lockHolder = some j
    by_cases hij : j = i
    · rw [hij]; exact hheld
    · rw [List.getElem?_set_ne (fun hh => hij hh.symm)] at hj
      exact hlock j t3 hj hc3
  · intro j t3 hj hpc3
    by_cases hij : j = i
    · subst hij
      rw [getElem?_set_self c.tasks j t _ ht] at hj
      injection hj with hj2
      rw [← hj2] at hpc3
      simp at hpc3
    · rw [List.getElem?_set_ne (fun hh => hij hh.symm)] at hj
      have hold := hreg j t3 hj hpc3
      cases ht3k : t3.kind with
      | writer f2 d2 =>
        simp only [ht3k] at hold ⊢
        exact hold.trans (getF_congr f2 c
          { c with obs := (t.reg, c.size) :: c.obs,
                   tasks := c.tasks.set i { t with pc := 3 } } rfl rfl).symm
      | reader =>
        simp only [ht3k] at hold ⊢
        exact hold
  · intro o ho
    rcases List.mem_cons.mp ho with hnew | hmem
    · subst hnew
      constructor
      · refine ⟨c.tasks.map fun t4 => decide (3 ≤ t4.pc), ?_⟩
        show t.reg = b0 + subSum SField.bytesF kinds (c.tasks.map fun t4 => decide (3 ≤ t4.pc))
        rw [← hkinds, ← doneSumF_eq_subSum, hri2]
        exact hbytes
      · refine ⟨c.tasks.map fun t4 => decide (3 ≤ t4.pc), ?_⟩
        show c.size = s0 + subSum SField.sizeF kinds (c.tasks.map fun t4 => decide (3 ≤ t4.pc))
        rw [← hkinds, ← doneSumF_eq_subSum]
        exact hsize
    · exact hobs o hmem

theorem lockInv_release (b0 s0 : Nat) (kinds : List TaskKind) (c : Conf) (i : Nat)
    (t : LTask) (hInv : LockInv b0 s0 kinds c) (ht : c.tasks[i]? = some t)
    (hheld : c.lockHolder = some i) (hpc : t.pc = 3) :
    LockInv b0 s0 kinds
      { c with lockHolder := none, tasks := c.tasks.set i { t with pc := 4 } } := by
  obtain ⟨hkinds, hbytes, hsize, hlock, hreg, hobs⟩ := hInv
  refine ⟨?_, ?_, ?_, ?_, ?_, ?_⟩
  · show (c.tasks.set i { t with pc := 4 }).map LTask.kind = kinds
    rw [map_kind_set c.tasks i t { t with pc := 4 } ht rfl]
    exact hkinds
  · show c.bytes = b0 + doneSumF SField.bytesF (c.tasks.set i { t with pc := 4 })
    have hd := doneSumF_set SField.bytesF c.tasks i t { t with pc := 4 } ht
    simp [hpc] at hd
    omega
  · show c.size = s0 + doneSumF SField.sizeF (c.tasks.set i { t with pc := 4 })
    have hd := doneSumF_set SField.sizeF c.tasks i t { t with pc := 4 } ht
    simp [hpc] at hd
    omega
  · intro j t3 hj hc3
    by_cases hij : j = i
    · subst hij
      rw [getElem?_set_self c.tasks j t _ ht] at hj
      injection hj with hj2
      rw [← hj2] at hc3
      rw [inCrit] at hc3
      simp at hc3
    · rw [List.getElem?_set_ne (fun hh => hij hh.symm)] at hj
      have hl3 := hlock j t3 hj hc3
      rw [hheld] at hl3
      injection hl3 with hl4
      exact absurd hl4.symm hij
  · intro j t3 hj hpc3
    by_cases hij : j = i
    · subst hij
      rw [getElem?_set_self c.tasks j t _ ht] at hj
      injection hj with hj2
      rw [← hj2] at hpc3
      simp at hpc3
    · rw [List.getElem?_set_ne (fun hh => hij hh.symm)] at hj
      have hold := hreg j t3 hj hpc3
      cases ht3k : t3.kind with
      | writer f2 d2 =>
        simp only [ht3k] at hold ⊢
        exact hold.trans (getF_congr f2 c
          { c with lockHolder := none,
                   tasks := c.tasks.set i { t with pc := 4 } } rfl rfl).symm
      | reader =>
        simp only [ht3k] at hold ⊢
        exact hold
  · exact hobs

theorem lockInv_stepTask (b0 s0 : Nat) (kinds : List TaskKind) (c c2 : Conf) (i : Nat)
    (hInv : LockInv b0 s0 kinds c) (h : stepTask c i = some c2) :
    LockInv b0 s0 kinds c2 := by
  unfold stepTask at h
  cases ht : c.tasks[i]? with
  | none => rw [ht] at h; exact Option.noConfusion h
  | some t =>
    rw [ht] at h
    have h2 : stepAt c i t = some c2 := h
    rcases t with ⟨k, pcv, regv⟩
    cases k with
    | writer f d =>
      simp only [stepAt] at h2
      by_cases hp0 : pcv = 0
      · rw [if_pos hp0] at h2
        by_cases hfree : c.lockHolder = none
        · rw [if_pos hfree] at h2
          injection h2 with h3
          rw [← h3]
          exact lockInv_acquire b0 s0 kinds c i ⟨TaskKind.writer f d, pcv, regv⟩
            hInv ht hfree hp0
        · rw [if_neg hfree] at h2; exact Option.noConfusion h2
      · rw [if_neg hp0] at h2
        by_cases hp1 : pcv = 1
        · rw [if_pos hp1] at h2
          by_cases hheld : c.lockHolder = some i
          · rw [if_pos hheld] at h2
            injection h2 with h3
            rw [← h3]
            exact lockInv_read b0 s0 kinds c i ⟨TaskKind.writer f d, pcv, regv⟩
              (getF f c) hInv ht hheld hp1 rfl
          · rw [if_neg hheld] at h2; exact Option.noConfusion h2
        · rw [if_neg hp1] at h2
          by_cases hp2 : pcv = 2
          · rw [if_pos hp2] at h2
            by_cases hheld : c.lockHolder = some i
            · rw [if_pos hheld] at h2
              injection h2 with h3
              rw [← h3]
              exact lockInv_store b0 s0 kinds c i ⟨TaskKind.writer f d, pcv, regv⟩
                f d hInv ht hheld rfl hp2
            · rw [if_neg hheld] at h2; exact Option.noConfusion h2
          · rw [if_neg hp2] at h2
            by_cases hp3 : pcv = 3
            · rw [if_pos hp3] at h2
              by_cases hheld : c.lockHolder = some i
              · rw [if_pos hheld] at h2
                injection h2 with h3
                rw [← h3]
                exact lockInv_release b0 s0 kinds c i ⟨TaskKind.writer f d, pcv, regv⟩
                  hInv ht hheld hp3
              · rw [if_neg hheld] at h2; exact Option.noConfusion h2
            · rw [if_neg hp3] at h2; exact Option.noConfusion h2
    | reader =>
      simp only [stepAt] at h2
      by_cases hp0 : pcv = 0
      · rw [if_pos hp0] at h2
        by_cases hfree : c.lockHolder = none
        · rw [if_pos hfree] at h2
          injection h2 with h3
          rw [← h3]
          exact lockInv_acquire b0 s0 kinds c i ⟨TaskKind.reader, pcv, regv⟩
            hInv ht hfree hp0
        · rw [if_neg hfree] at h2; exact Option.noConfusion h2
      · rw [if_neg hp0] at h2
        by_cases hp1 : pcv = 1
        · rw [if_pos hp1] at h2
          by_cases hheld : c.lockHolder = some i
          · rw [if_pos hheld] at h2
            injection h2 with h3
            rw [← h3]
            exact lockInv_read b0 s0 kinds c i ⟨TaskKind.reader, pcv, regv⟩
              c.bytes hInv ht hheld hp1 rfl
          · rw [if_neg hheld] at h2; exact Option.noConfusion h2
        · rw [if_neg hp1] at h2
          by_cases hp2 : pcv = 2
          · rw [if_pos hp2] at h2
            by_cases hheld : c.lockHolder = some i
            · rw [if_pos hheld] at h2
              injection h2 with h3
              rw [← h3]
              exact lockInv_obsRec b0 s0 kinds c i ⟨TaskKind.reader, pcv, regv⟩
                hInv ht hheld rfl hp2
            · rw [if_neg hheld] at h2; exact Option.noConfusion h2
          · rw [if_neg hp2] at h2
            by_cases hp3 : pcv = 3
            · rw [if_pos hp3] at h2
              by_cases hheld : c.lockHolder = some i
              · rw [if_pos hheld] at h2
                injection h2 with h3
                rw [← h3]
                exact lockInv_release b0 s0 kinds c i ⟨TaskKind.reader, pcv, regv⟩
                  hInv ht hheld hp3
              · rw [if_neg hheld] at h2; exact Option.noConfusion h2
            · rw [if_neg hp3] at h2; exact Option.noConfusion h2

theorem lockInv_run (b0 s0 : Nat) (kinds : List TaskKind) (c c2 : Conf)
    (sched : List Nat) (hInv : LockInv b0 s0 kinds c) (h : run c sched = some c2) :
    LockInv b0 s0 kinds c2 := by
  induction sched generalizing c with
  | nil =>
    have hc : c = c2 := by simpa [run] using h
    rw [← hc]; exact hInv
  | cons j rest ih =>
    unfold run at h
    cases hs : stepTask c j with
    | none => rw [hs] at h; exact Option.noConfusion h
    | some c3 =>
      rw [hs] at h
      exact ih c3 (lockInv_stepTask b0 s0 kinds c c3 j hInv hs) h

/-- C10.  Under the lock machine that embeds the program's
`Arc<Mutex<DownloadStats>>` discipline (every counter access happens
inside a `lock().await` critical section), in every reachable
configuration at most one task is inside its critical section (the
writers' `+=` updates at `main.rs` lines 62-65 and 73-74 and the
reporter's reads at lines 83-88 are mutually exclusive), and every value
pair a reporter tick observes is the initial counters plus the deltas of
some subset of fully-applied updates: never a half-applied or torn
update. -/
theorem mutex_no_torn_reads (b0 s0 : Nat) (kinds : List TaskKind) (sched : List Nat)
    (c : Conf) (h : run (initConf b0 s0 kinds) sched = some c) :
    (∀ (i j : Nat) (ti tj : LTask), c.tasks[i]? = some ti → c.tasks[j]? = some tj →
        inCrit ti → inCrit tj → i = j) ∧
    ∀ o ∈ c.obs, ValidObs b0 s0 kinds o := by
  have hInv := lockInv_run b0 s0 kinds (initConf b0 s0 kinds) c sched
      (lockInv_init b0 s0 kinds) h
  obtain ⟨_, _, _, hlock, _, hobs⟩ := hInv
  constructor
  · intro i j ti tj hi hj hci hcj
    have h1 := hlock i ti hi hci
    have h2 := hlock j tj hj hcj
    rw [h1] at h2
    exact Option.some.inj h2
  · exact hobs

/-- Witness for `mutex_no_torn_reads`: one writer adding 5 to
`total_bytes` and one reporter tick, run to completion; the recorded
observation `(5, 0)` is fully applied. -/
theorem mutex_no_torn_reads_witness :
    ValidObs 0 0 [TaskKind.writer SField.bytesF 5, TaskKind.reader] (5, 0) :=
  (mutex_no_torn_reads 0 0 [TaskKind.writer SField.bytesF 5, TaskKind.reader]
      [0, 0, 0, 0, 1, 1, 1, 1]
      { bytes := 5, size := 0, lockHolder := none,
        tasks := [{ kind := TaskKind.writer SField.bytesF 5, pc := 4, reg := 0 },
                  { kind := TaskKind.reader, pc := 4, reg := 5 }],
        obs := [(5, 0)] }
      (by decide)).2 (5, 0) (by decide)
